import Mathlib

/-!
Verification of the `tagging` CLI (src/tag_propagate.py), a tool that
propagates a derived machine-key tag and a `Name` tag from EC2 instances
onto EBS volumes, snapshots, EFS and FSx resources, repairs orphaned AMI
snapshots, and activates Cost Allocation Tags.

The Python source is shallowly embedded below: each Python function used by
the claims is translated to an executable Lean definition of the same name
(modulo Lean naming rules), with AWS API responses modelled as explicit
environment records and AWS write calls modelled as an `ApiCall` list.
-/

namespace AwsTag

/-- Python `str.isspace`-style test for the ASCII whitespace characters that
`str.strip` / `str.split` (and the regex class `\s`) treat as whitespace. -/
def pyIsSpace (c : Char) : Bool :=
  c == ' ' || c == '\t' || c == '\n' || c == '\r' ||
  c == Char.ofNat 11 || c == Char.ofNat 12

/-- Python `str.strip()`: drop leading and trailing whitespace. -/
def pyStrip (l : List Char) : List Char :=
  ((l.dropWhile pyIsSpace).reverse.dropWhile pyIsSpace).reverse

/-- Accumulator worker for Python `str.split()` (split on whitespace runs,
dropping empty tokens); `acc` holds the current token reversed. -/
def pySplitAux : List Char → List Char → List (List Char)
  | [], acc => if acc.isEmpty then [] else [acc.reverse]
  | c :: cs, acc =>
    if pyIsSpace c then
      if acc.isEmpty then pySplitAux cs [] else acc.reverse :: pySplitAux cs []
    else
      pySplitAux cs (c :: acc)

/-- Python `str.split()` with no separator argument. -/
def pySplit (l : List Char) : List (List Char) :=
  pySplitAux l []

/-- Python `sep.join(tokens)` on character lists. -/
def joinWith (sep : List Char) : List (List Char) → List Char
  | [] => []
  | [x] => x
  | x :: y :: rest => x ++ sep ++ joinWith sep (y :: rest)

/-- ASCII lowercasing of one character, as Python `str.lower` acts on ASCII. -/
def asciiLowerChar (c : Char) : Char :=
  if 'A' ≤ c && c ≤ 'Z' then Char.ofNat (c.toNat + 32) else c

/-- ASCII lowercasing of a string (Python `str.lower` on ASCII input). -/
def asciiLowerStr (s : String) : String :=
  (s.data.map asciiLowerChar).asString

/-- Does `nee` occur at the very start of the second list? -/
def leadMatch : List Char → List Char → Bool
  | [], _ => true
  | _ :: _, [] => false
  | a :: as, b :: bs => a == b && leadMatch as bs

/-- Python `nee in hay` substring test. -/
def hasSubstring (nee : List Char) : List Char → Bool
  | [] => nee.isEmpty
  | c :: cs => leadMatch nee (c :: cs) || hasSubstring nee cs

/-- Python `s.startswith(p)`. -/
def pyStartsWith (s p : String) : Bool :=
  leadMatch p.data s.data

/-- Lowercase hexadecimal digit, as matched by the regex class `[0-9a-f]`. -/
def isHexLower (c : Char) : Bool :=
  c.isDigit || ('a' ≤ c && c ≤ 'f')

/-- Length of the longest leading run of `[0-9a-f]` characters, capped at
`k` (the greedy bounded repetition `{8,17}` caps at 17). -/
def hexLen : List Char → Nat → Nat
  | [], _ => 0
  | _ :: _, 0 => 0
  | c :: cs, k + 1 => if isHexLower c then hexLen cs k + 1 else 0

/-- Fuelled scanner for `re.findall(r"(ami-[0-9a-f]{8,17})", desc)`:
left-to-right, non-overlapping, greedy up to 17 hex digits; on a failed
match attempt the scan advances one character. -/
def findAmiAux : Nat → List Char → List String
  | 0, _ => []
  | _ + 1, [] => []
  | fuel + 1, c :: cs =>
    if c == 'a' then
      match cs with
      | 'm' :: 'i' :: '-' :: rest =>
        let n := hexLen rest 17
        if 8 ≤ n then
          ("ami-" ++ (rest.take n).asString) :: findAmiAux fuel (rest.drop n)
        else findAmiAux fuel cs
      | _ => findAmiAux fuel cs
    else findAmiAux fuel cs

/-- All matches of `re.findall(r"(ami-[0-9a-f]{8,17})", ·)` in a string. -/
def findAmiIds (l : List Char) : List String :=
  findAmiAux l.length l

/-- An AWS tag: a key/value pair of strings. -/
structure Tag where
  key : String
  value : String
deriving DecidableEq

/-- Keys of a tag list, in order (the key set of the Python dict
`{t["Key"]: t["Value"] for t in tags}`). -/
def keysOf (ts : List Tag) : List String :=
  ts.map (·.key)

/-- The tag-merge decision shared by `process_resource` (lines 300-306) and
`process_instance` (lines 354-359): add a `Name` tag when the key `Name` is
absent from the current tags, and add the machine-key tag with empty value
when that key is absent. -/
def tagsToAdd (current : List Tag) (machineKey nameValue : String) : List Tag :=
  (if (keysOf current).contains "Name" then [] else [⟨"Name", nameValue⟩]) ++
  (if (keysOf current).contains machineKey then [] else [⟨machineKey, ""⟩])

/-- Effect of AWS `CreateTags` on a resource's tag list: keys named in
`toAdd` take their new values, all other existing tags are untouched. -/
def applyCreateTags (current toAdd : List Tag) : List Tag :=
  current.filter (fun t => !(keysOf toAdd).contains t.key) ++ toAdd

/-- An EC2 instance as the script reads it: id, state, optional tag list
(`instance.tags` may be `None`), and the `Ebs.VolumeId` entries of its
block device mappings (each may be missing). -/
structure Instance where
  iid : String
  state : String
  tags : Option (List Tag)
  blockDeviceMappings : List (Option String)
deriving DecidableEq

/-- Loop body of `get_machine_key`: first tag whose key is `Name` with a
non-empty value yields the normalized name; otherwise the instance id. -/
def machineKeyLoop (iid : String) : List Tag → String
  | [] => iid
  | t :: ts =>
    if t.key == "Name" && t.value != "" then
      ((joinWith [' '] (pySplit (pyStrip t.value.data))).map
        (fun c => if c == ' ' then '-' else c)).asString
    else machineKeyLoop iid ts

/-- The normalization applied by `get_machine_key` to a `Name` value:
`" ".join(value.strip().split())` followed by `.replace(" ", "-")`. -/
def machineKeyOfName (v : String) : String :=
  ((joinWith [' '] (pySplit (pyStrip v.data))).map
    (fun c => if c == ' ' then '-' else c)).asString

/-- `get_machine_key` (lines 222-228): derive the machine key from the
instance's `Name` tag, falling back to the instance id. -/
def get_machine_key (inst : Instance) : String :=
  match inst.tags with
  | none => inst.iid
  | some ts => if ts.isEmpty then inst.iid else machineKeyLoop inst.iid ts

/-- The machine-key computation of the standalone volume/snapshot modes
(`process_all_volumes` line 417/429, `process_all_snapshots` lines 482/495/524):
`name_value.replace(' ', '-')` with no stripping or collapsing. -/
def standaloneMachineKey (name : String) : String :=
  (name.data.map (fun c => if c == ' ' then '-' else c)).asString

/-- `normalize_storage_key` (lines 623-632): strip, replace characters
outside `[a-zA-Z0-9\-\s]` with `-`, then replace spaces with `-`. -/
def normalize_storage_key (name : String) : String :=
  (((pyStrip name.data).map
      (fun c => if c.isAlphanum || c == '-' || pyIsSpace c then c else '-')).map
    (fun c => if c == ' ' then '-' else c)).asString

/-- The sanitization `re.sub(r"[^a-zA-Z0-9\-]", "-", name)` used for AMI
derived keys (lines 517 and 591). -/
def sanitizeKey (name : String) : String :=
  (name.data.map (fun c => if c.isAlphanum || c == '-' then c else '-')).asString

/-- A tag-writing AWS API call issued by the script. -/
inductive ApiCall where
  | createTags (resourceId : String) (tags : List Tag)
  | tagResourceById (resourceId : String) (tags : List Tag)
  | tagResourceByArn (arn : String) (tags : List Tag)
  | putCostAllocationTags (keys : List String)
deriving DecidableEq

/-- The tag list carried by a tag-writing call. -/
def callTags : ApiCall → List Tag
  | .createTags _ ts => ts
  | .tagResourceById _ ts => ts
  | .tagResourceByArn _ ts => ts
  | .putCostAllocationTags _ => []

/-- `plan_or_apply` (lines 274-290), as the list of tag-writing calls it
issues: nothing when there is nothing to add, nothing in dry-run mode, and
one `create_tags` call otherwise (the resource type string is only
printed). -/
def plan_or_apply (resourceId : String) (tagsAdd : List Tag)
    (_resourceType : String) (dryRun : Bool) : List ApiCall :=
  if tagsAdd.isEmpty then []
  else if dryRun then []
  else [.createTags resourceId tagsAdd]

/-- `plan_or_apply_storage` (lines 635-673): nothing to add or dry-run mode
issues no call; otherwise EFS resources are tagged by id via `TagResource`
and FSx resources by ARN. -/
def plan_or_apply_storage (service resourceIdOrArn : String)
    (tagsAdd : List Tag) (_resourceType : String) (dryRun : Bool) : List ApiCall :=
  if tagsAdd.isEmpty then []
  else if dryRun then []
  else if service == "efs" then [.tagResourceById resourceIdOrArn tagsAdd]
  else [.tagResourceByArn resourceIdOrArn tagsAdd]

/-- Resolution of the dry-run flag in `main` (lines 900-909): the
`dry-run` and `show` actions force dry-run even when `--apply` was given;
every other action is dry-run exactly when `--apply` is absent. -/
def resolveDryRun (action : String) (applyFlag : Bool) : Bool :=
  if action == "dry-run" then true
  else if action == "show" then true
  else !applyFlag

/-- A snapshot as returned by `describe_snapshots`: id, volume id,
description (`""` when absent), tags, and whether it is owned by the
calling account (the `OwnerIds=['self']` pagination filter). -/
structure Snapshot where
  sid : String
  volumeId : String
  desc : String
  tags : List Tag
  ownerSelf : Bool
deriving DecidableEq

/-- The EC2 responses visible to one region's instance-lineage pass:
per-id volume and snapshot describe results (`none` models a
`ClientError`), the region's snapshot collection, and its instances. -/
structure Ec2Region where
  instances : List Instance
  volumeTags : String → Option (List Tag)
  snapshotTags : String → Option (List Tag)
  snapshots : List Snapshot

/-- `process_resource` (lines 293-311): describe the volume or snapshot,
compute the tags to add against its current tags, and plan or apply them;
a `ClientError` from the describe call is caught and nothing is issued. -/
def process_resource (env : Ec2Region) (resourceId machineKey nameValue
    resourceType : String) (dryRun : Bool) : List ApiCall :=
  match (if resourceType == "Volume" then env.volumeTags resourceId
         else env.snapshotTags resourceId) with
  | none => []
  | some data => plan_or_apply resourceId (tagsToAdd data machineKey nameValue)
      resourceType dryRun

/-- `tag_volumes_and_snapshots` (lines 314-338): tag the instance's mapped
volumes, then the self-owned snapshots of those volumes, then the
self-owned snapshots whose description mentions the instance id. -/
def tag_volumes_and_snapshots (env : Ec2Region) (inst : Instance)
    (machineKey nameValue : String) (dryRun tagVolumes tagSnapshots : Bool) :
    List ApiCall :=
  let volumeIds := inst.blockDeviceMappings.filterMap id
  (if tagVolumes then
     volumeIds.flatMap (fun v => process_resource env v machineKey nameValue "Volume" dryRun)
   else []) ++
  (if tagSnapshots && !volumeIds.isEmpty then
     (env.snapshots.filter (fun s => s.ownerSelf && volumeIds.contains s.volumeId)).flatMap
       (fun s => process_resource env s.sid machineKey nameValue "Snapshot" dryRun)
   else []) ++
  (if tagSnapshots then
     (env.snapshots.filter
         (fun s => s.ownerSelf && hasSubstring inst.iid.data s.desc.data)).flatMap
       (fun s => process_resource env s.sid machineKey nameValue "Snapshot (AMI)" dryRun)
   else [])

/-- `process_instance` (lines 341-364): return immediately for terminated
instances, otherwise derive the machine key and name value, tag the
instance itself, then its volumes and snapshots. -/
def process_instance (env : Ec2Region) (inst : Instance)
    (dryRun tagInstance tagVolumes tagSnapshots : Bool) : List ApiCall :=
  if inst.state == "terminated" then []
  else
    let machineKey := get_machine_key inst
    let nameValue :=
      match (inst.tags.getD []).find? (fun t => t.key == "Name") with
      | some t => if t.value == "" then inst.iid else t.value
      | none => inst.iid
    (if tagInstance then
       plan_or_apply inst.iid (tagsToAdd (inst.tags.getD []) machineKey nameValue)
         "EC2 Instance" dryRun
     else []) ++
    (if tagVolumes || tagSnapshots then
       tag_volumes_and_snapshots env inst machineKey nameValue dryRun tagVolumes tagSnapshots
     else [])

/-- `process_region` (lines 367-380): iterate only the instances whose
state is `running` or `stopped` (server-side filter) and process each. -/
def process_region (env : Ec2Region) (dryRun tagInstances tagVolumes tagSnapshots : Bool) :
    List ApiCall :=
  (env.instances.filter (fun i => i.state == "running" || i.state == "stopped")).flatMap
    (fun i => process_instance env i dryRun tagInstances tagVolumes tagSnapshots)

/-- Outcome of running a batch of resources: the tag-writing calls issued
and the resource ids whose call raised a printed `ClientError`. -/
structure RunResult where
  calls : List ApiCall
  errors : List String
deriving DecidableEq

/-- `plan_or_apply` with the `create_tags` outcome made explicit:
`createFails` says which resources raise a `ClientError`; the call is
still issued (and the error printed), and the function returns normally. -/
def plan_or_apply_run (createFails : String → Bool) (resourceId : String)
    (tagsAdd : List Tag) (dryRun : Bool) : RunResult :=
  if tagsAdd.isEmpty then ⟨[], []⟩
  else if dryRun then ⟨[], []⟩
  else if createFails resourceId then ⟨[.createTags resourceId tagsAdd], [resourceId]⟩
  else ⟨[.createTags resourceId tagsAdd], []⟩

/-- `process_resource` with describe/create failures made explicit: a
failing describe call is caught, printed, and processing of the resource
ends there. -/
def process_resource_run (describeFails createFails : String → Bool)
    (tagsOf : String → List Tag) (resourceId machineKey nameValue : String)
    (dryRun : Bool) : RunResult :=
  if describeFails resourceId then ⟨[], [resourceId]⟩
  else plan_or_apply_run createFails resourceId
    (tagsToAdd (tagsOf resourceId) machineKey nameValue) dryRun

/-- Sequential processing of a list of resource ids, one
`process_resource` each, errors and calls accumulated in order. -/
def process_resources_run (describeFails createFails : String → Bool)
    (tagsOf : String → List Tag) (machineKey nameValue : String)
    (dryRun : Bool) : List String → RunResult
  | [] => ⟨[], []⟩
  | r :: rs =>
    let h := process_resource_run describeFails createFails tagsOf r machineKey nameValue dryRun
    let t := process_resources_run describeFails createFails tagsOf machineKey nameValue dryRun rs
    ⟨h.calls ++ t.calls, h.errors ++ t.errors⟩

/-- An AMI as returned by `describe_images`: id, optional `Name` field,
and tags. -/
structure Image where
  imgId : String
  name : Option String
  tags : List Tag
deriving DecidableEq

/-- The name chosen for an orphaned AMI snapshot (lines 588-590): the
image's `Name` tag value if non-empty, else its `Name` field if non-empty,
else the AMI id. -/
def amiNameOf (img : Image) (amiId : String) : String :=
  match img.tags.find? (fun t => t.key == "Name") with
  | some t =>
    if t.value == "" then
      match img.name with
      | some n => if n == "" then amiId else n
      | none => amiId
    else t.value
  | none =>
    match img.name with
    | some n => if n == "" then amiId else n
    | none => amiId

/-- The loop over `ami_ids` (lines 585-594): first AMI id whose
`describe_images` call succeeds, with its image. -/
def firstResolvedAmi (images : String → Option Image) : List String →
    Option (String × Image)
  | [] => none
  | amiId :: rest =>
    match images amiId with
    | some img => some (amiId, img)
    | none => firstResolvedAmi images rest

/-- Body of `fix_orphaned_ami_snapshots` for one snapshot (lines 568-613):
skip unless the lowercased description contains an `ami-` id matching
`ami-[0-9a-f]{8,17}`; skip snapshots that already have a `Name` tag; resolve
the first describable AMI; add a `Name` tag with the AMI-derived name plus
the sanitized key tag when absent; finally tag the AMI itself with the
sanitized key when it lacks it. -/
def fixOrphanSnap (images : String → Option Image) (snap : Snapshot)
    (dryRun : Bool) : List ApiCall :=
  let descLower := asciiLowerStr snap.desc
  if !hasSubstring "ami-".data descLower.data then []
  else
    let amiIds := findAmiIds descLower.data
    if amiIds.isEmpty then []
    else if (keysOf snap.tags).contains "Name" then []
    else
      match firstResolvedAmi images amiIds with
      | none => []
      | some (amiId, img) =>
        let amiName := amiNameOf img amiId
        let amiKey := sanitizeKey amiName
        let toAdd := ⟨"Name", amiName⟩ ::
          (if (keysOf snap.tags).contains amiKey then [] else [⟨amiKey, ""⟩])
        plan_or_apply snap.sid toAdd "Snapshot (Orphan-AMI)" dryRun ++
        (match images amiId with
         | some img2 =>
           if (keysOf img2.tags).contains amiKey then []
           else plan_or_apply amiId [⟨amiKey, ""⟩] "Image" dryRun
         | none => [])

/-- `fix_orphaned_ami_snapshots` (lines 562-615): the self-owned snapshots
of the region (the `OwnerIds=['self']` pagination filter), each repaired by
`fixOrphanSnap`. -/
def fix_orphaned_ami_snapshots (images : String → Option Image)
    (snaps : List Snapshot) (dryRun : Bool) : List ApiCall :=
  (snaps.filter (·.ownerSelf)).flatMap (fun s => fixOrphanSnap images s dryRun)

/-- An EFS file system as returned by `describe_file_systems`. -/
structure EfsFileSystem where
  fsId : String
  tags : List Tag
deriving DecidableEq

/-- An FSx file system as returned by `describe_file_systems`. -/
structure FsxFileSystem where
  fsId : String
  fsType : String
  arn : String
  tags : List Tag
deriving DecidableEq

/-- The EFS responses visible to the storage pass: `ListTagsForResource`
per id (errors yield `{}` in `get_current_tags_storage`) and the access
point ids of each file system. -/
structure EfsApi where
  listTags : String → List Tag
  accessPoints : String → List String

/-- The FSx responses visible to the storage pass: `ListTagsForResource`
per ARN and the backup, volume and SVM ARNs of each file system. -/
structure FsxApi where
  listTags : String → List Tag
  backups : String → List String
  fsxVolumes : String → List String
  svms : String → List String

/-- The display name of an EFS file system (lines 723-727): its `Name` tag
matched case-insensitively, falling back to the file system id when absent
or empty. -/
def efsNameOf (fs : EfsFileSystem) : String :=
  match fs.tags.find? (fun t => asciiLowerStr t.key == "name") with
  | some t => if t.value == "" then fs.fsId else t.value
  | none => fs.fsId

/-- The tag key used for an EFS file system and its access points
(line 728). -/
def efsKeyOf (fs : EfsFileSystem) : String :=
  normalize_storage_key (efsNameOf fs)

/-- EFS part of `process_efs_and_fsx` for one file system (lines 721-755):
tag the file system with `Name` and the storage key when absent, then each
access point with the storage key when absent. -/
def processEfsFs (api : EfsApi) (fs : EfsFileSystem) (dryRun : Bool) : List ApiCall :=
  let name := efsNameOf fs
  let key := efsKeyOf fs
  let current := api.listTags fs.fsId
  let toAdd :=
    (if (keysOf current).contains "Name" then [] else [⟨"Name", name⟩]) ++
    (if (keysOf current).contains key then [] else [⟨key, ""⟩])
  plan_or_apply_storage "efs" fs.fsId toAdd "EFS FileSystem" dryRun ++
  (api.accessPoints fs.fsId).flatMap (fun ap =>
    if (keysOf (api.listTags ap)).contains key then []
    else plan_or_apply_storage "efs" ap [⟨key, ""⟩] "EFS AccessPoint" dryRun)

/-- The display name of an FSx file system (lines 787-791). -/
def fsxNameOf (fs : FsxFileSystem) : String :=
  match fs.tags.find? (fun t => asciiLowerStr t.key == "name") with
  | some t => if t.value == "" then fs.fsId else t.value
  | none => fs.fsId

/-- The tag key used for an FSx file system and its backups, volumes and
SVMs (line 792). -/
def fsxKeyOf (fs : FsxFileSystem) : String :=
  normalize_storage_key (fsxNameOf fs)

/-- FSx part of `process_efs_and_fsx` for one file system (lines 783-853):
tag the file system with `Name` and the storage key when absent, then its
backups, its volumes (ONTAP/WINDOWS/OPENZFS only) and its SVMs (ONTAP
only), each with the storage key when absent. -/
def processFsxFs (api : FsxApi) (fs : FsxFileSystem) (dryRun : Bool) : List ApiCall :=
  let name := fsxNameOf fs
  let key := fsxKeyOf fs
  let current := api.listTags fs.arn
  let toAdd :=
    (if (keysOf current).contains "Name" then [] else [⟨"Name", name⟩]) ++
    (if (keysOf current).contains key then [] else [⟨key, ""⟩])
  plan_or_apply_storage "fsx" fs.arn toAdd "FSx FileSystem" dryRun ++
  (api.backups fs.fsId).flatMap (fun bArn =>
    if (keysOf (api.listTags bArn)).contains key then []
    else plan_or_apply_storage "fsx" bArn [⟨key, ""⟩] "FSx Backup" dryRun) ++
  (if fs.fsType == "ONTAP" || fs.fsType == "WINDOWS" || fs.fsType == "OPENZFS" then
     (api.fsxVolumes fs.fsId).flatMap (fun vArn =>
       if (keysOf (api.listTags vArn)).contains key then []
       else plan_or_apply_storage "fsx" vArn [⟨key, ""⟩] "FSx Volume" dryRun)
   else []) ++
  (if fs.fsType == "ONTAP" then
     (api.svms fs.fsId).flatMap (fun svmArn =>
       if (keysOf (api.listTags svmArn)).contains key then []
       else plan_or_apply_storage "fsx" svmArn [⟨key, ""⟩] "FSx SVM" dryRun)
   else [])

/-- One entry of a `describe_tags` page: the resource type it is attached
to and the tag key. -/
structure TagDesc where
  resourceType : String
  key : String
deriving DecidableEq

/-- The billing and per-region responses seen by
`activate_cost_allocation_tags`: the currently active Cost Allocation Tag
keys, whether listing them succeeds, and per region whether the
`describe_tags` scan succeeds and what it returns. -/
structure BillingEnv where
  activeTags : List String
  listOk : Bool
  scanOk : String → Bool
  regionTags : String → List TagDesc

/-- The tag keys found on instance, volume and snapshot resources across
the regions whose scan succeeds (lines 125-136, before the `aws:`
exclusion). -/
def foundKeys (env : BillingEnv) (regions : List String) : List String :=
  regions.flatMap (fun r =>
    if env.scanOk r then
      ((env.regionTags r).filter (fun td =>
        td.resourceType == "instance" || td.resourceType == "volume" ||
        td.resourceType == "snapshot")).map (·.key)
    else [])

/-- The eligible keys (line 138): found keys, minus keys starting `aws:`
(line 132), deduplicated as a set, minus already-active keys. -/
def eligibleKeys (env : BillingEnv) (regions : List String) : List String :=
  (((foundKeys env regions).filter (fun k => !pyStartsWith k "aws:")).dedup).filter
    (fun k => !env.activeTags.contains k)

/-- `activate_cost_allocation_tags` (lines 104-160), as the list of
writing calls it issues: nothing when listing active tags fails, nothing
when no key is eligible, nothing in dry-run mode, and one
`put_cost_allocation_tags` call otherwise. -/
def activate_cost_allocation_tags (env : BillingEnv) (regions : List String)
    (dryRun : Bool) : List ApiCall :=
  if !env.listOk then []
  else if (eligibleKeys env regions).isEmpty then []
  else if dryRun then []
  else [.putCostAllocationTags (eligibleKeys env regions)]

/-- Word/space shape recognizer used to state when the two machine-key
normalizations agree. State 0 is the start, state 1 is inside or right
after a word, state 2 is right after a separating space; accepted strings
are words of non-whitespace characters separated by single spaces, with no
leading or trailing whitespace. -/
def ssState : List Char → Nat → Bool
  | [], st => st != 2
  | c :: cs, st =>
    if pyIsSpace c then
      if c == ' ' && st == 1 then ssState cs 2 else false
    else ssState cs 1

/-- A name consisting of non-whitespace words separated by single spaces
(no leading/trailing whitespace, no other whitespace characters). -/
def isSingleSpaced (s : String) : Bool :=
  ssState s.data 0

/-- Membership characterization of the tag-merge decision. -/
theorem mem_tagsToAdd {current : List Tag} {mk nv : String} {t : Tag} :
    t ∈ tagsToAdd current mk nv ↔
      (t = ⟨"Name", nv⟩ ∧ "Name" ∉ keysOf current) ∨
      (t = ⟨mk, ""⟩ ∧ mk ∉ keysOf current) := by
  by_cases h1 : "Name" ∈ keysOf current <;> by_cases h2 : mk ∈ keysOf current <;>
    simp [tagsToAdd, h1, h2]

/-- keys produced by the tag-merge decision are absent from the current keys. -/
theorem keysOf_tagsToAdd_not_current {current : List Tag} {mk nv k : String}
    (hk : k ∈ keysOf (tagsToAdd current mk nv)) : k ∉ keysOf current := by
  obtain ⟨u, hu, rfl⟩ := by simpa [keysOf] using hk
  rcases mem_tagsToAdd.1 hu with ⟨rfl, h⟩ | ⟨rfl, h⟩ <;> exact h

/-- Existing tags survive a `CreateTags` built from the tag-merge decision. -/
theorem mem_applyCreateTags_of_mem {current : List Tag} {mk nv : String} {t : Tag}
    (ht : t ∈ current) :
    t ∈ applyCreateTags current (tagsToAdd current mk nv) := by
  have hk : t.key ∈ keysOf current := List.mem_map_of_mem (·.key) ht
  refine List.mem_append_left _ ?_
  rw [List.mem_filter]
  refine ⟨ht, ?_⟩
  simp only [Bool.not_eq_true']
  rw [Bool.eq_false_iff]
  intro hc
  exact keysOf_tagsToAdd_not_current (by simpa using hc) hk

/-- After `CreateTags` of the merge decision the key `Name` is present. -/
theorem name_mem_keysOf_applyCreateTags (current : List Tag) (mk nv : String) :
    "Name" ∈ keysOf (applyCreateTags current (tagsToAdd current mk nv)) := by
  by_cases h1 : "Name" ∈ keysOf current
  · obtain ⟨t, ht, hkey⟩ := by simpa [keysOf] using h1
    have h := List.mem_map_of_mem (·.key)
      (@mem_applyCreateTags_of_mem current mk nv t ht)
    simpa [keysOf, hkey] using h
  · have hmem : (⟨"Name", nv⟩ : Tag) ∈ tagsToAdd current mk nv :=
      mem_tagsToAdd.2 (.inl ⟨rfl, h1⟩)
    exact List.mem_map_of_mem (·.key) (List.mem_append_right _ hmem)

/-- After `CreateTags` of the merge decision the machine key is present. -/
theorem mk_mem_keysOf_applyCreateTags (current : List Tag) (mk nv : String) :
    mk ∈ keysOf (applyCreateTags current (tagsToAdd current mk nv)) := by
  by_cases h2 : mk ∈ keysOf current
  · obtain ⟨t, ht, hkey⟩ := by simpa [keysOf] using h2
    have h := List.mem_map_of_mem (·.key)
      (@mem_applyCreateTags_of_mem current mk nv t ht)
    simpa [keysOf, hkey] using h
  · have hmem : (⟨mk, ""⟩ : Tag) ∈ tagsToAdd current mk nv :=
      mem_tagsToAdd.2 (.inr ⟨rfl, h2⟩)
    exact List.mem_map_of_mem (·.key) (List.mem_append_right _ hmem)

/-- The merge decision is empty when both keys are already present. -/
theorem tagsToAdd_eq_nil {current : List Tag} {mk nv : String}
    (h1 : "Name" ∈ keysOf current) (h2 : mk ∈ keysOf current) :
    tagsToAdd current mk nv = [] := by
  simp [tagsToAdd, h1, h2]

/-- C2: the tag-merge decision of `process_resource` and `process_instance`
adds a `Name` tag exactly when the resource has no tag with key `Name`, adds
the machine-key tag (empty value) exactly when that key is absent, never
emits a key already present on the resource, and therefore leaves every
existing tag unchanged under the `create_tags` write. -/
theorem claim_C2 (current : List Tag) (mk nv : String) :
    (∀ t ∈ tagsToAdd current mk nv, t.key ∉ keysOf current) ∧
    (∀ t ∈ current, t ∈ applyCreateTags current (tagsToAdd current mk nv)) ∧
    ("Name" ∉ keysOf current → (⟨"Name", nv⟩ : Tag) ∈ tagsToAdd current mk nv) ∧
    (mk ∉ keysOf current → (⟨mk, ""⟩ : Tag) ∈ tagsToAdd current mk nv) ∧
    (∀ t ∈ tagsToAdd current mk nv, t.key = "Name" → "Name" ∉ keysOf current) ∧
    (∀ t ∈ tagsToAdd current mk nv, t.key = mk → mk ∉ keysOf current) := by
  refine ⟨?_, fun t ht => mem_applyCreateTags_of_mem ht,
    fun h => mem_tagsToAdd.2 (.inl ⟨rfl, h⟩),
    fun h => mem_tagsToAdd.2 (.inr ⟨rfl, h⟩), ?_, ?_⟩
  · intro t ht
    exact keysOf_tagsToAdd_not_current (List.mem_map_of_mem (·.key) ht)
  · intro t ht heq
    have := keysOf_tagsToAdd_not_current (List.mem_map_of_mem (·.key) ht)
    rwa [heq] at this
  · intro t ht heq
    have := keysOf_tagsToAdd_not_current (List.mem_map_of_mem (·.key) ht)
    rwa [heq] at this

/-- Witness for C2 at a concrete resource with an unrelated existing tag. -/
theorem claim_C2_witness :
    (⟨"Name", "srv"⟩ : Tag) ∈ tagsToAdd [⟨"env", "prod"⟩] "web" "srv" :=
  (claim_C2 [⟨"env", "prod"⟩] "web" "srv").2.2.1 (by decide)

/-- C9: when a resource already carries a `Name` tag and the machine key,
the computed tag list is empty and `plan_or_apply` issues nothing; moreover
recomputing the tag list over the state produced by a first apply-mode run
always yields the empty list, so a second run adds no tags. -/
theorem claim_C9 (current : List Tag) (mk nv nv' rid rtype : String) (dry : Bool) :
    ("Name" ∈ keysOf current → mk ∈ keysOf current →
      tagsToAdd current mk nv = [] ∧
      plan_or_apply rid (tagsToAdd current mk nv) rtype dry = []) ∧
    tagsToAdd (applyCreateTags current (tagsToAdd current mk nv)) mk nv' = [] := by
  constructor
  · intro h1 h2
    have he : tagsToAdd current mk nv = [] := tagsToAdd_eq_nil h1 h2
    exact ⟨he, by simp [he, plan_or_apply]⟩
  · exact tagsToAdd_eq_nil (name_mem_keysOf_applyCreateTags current mk nv)
      (mk_mem_keysOf_applyCreateTags current mk nv)

/-- Witness for C9 at a concrete freshly-tagged resource. -/
theorem claim_C9_witness :
    tagsToAdd (applyCreateTags [⟨"env", "prod"⟩] (tagsToAdd [⟨"env", "prod"⟩] "web" "srv"))
      "web" "srv2" = [] :=
  (claim_C9 [⟨"env", "prod"⟩] "web" "srv" "srv2" "vol-1" "Volume" false).2

/-- C3: the dry-run flag holds by default (no `--apply`), is forced for the
`dry-run` and `show` actions even when `--apply` is given, and under it
neither `plan_or_apply` nor `plan_or_apply_storage` issues any tag-writing
call; conversely a call can only be issued when `--apply` was passed to an
action other than `dry-run` and `show`. -/
theorem claim_C3 (action svc rid rtype : String) (applyFlag : Bool) (tta : List Tag) :
    resolveDryRun action false = true ∧
    resolveDryRun "dry-run" applyFlag = true ∧
    resolveDryRun "show" applyFlag = true ∧
    (resolveDryRun action applyFlag = true →
      plan_or_apply rid tta rtype (resolveDryRun action applyFlag) = [] ∧
      plan_or_apply_storage svc rid tta rtype (resolveDryRun action applyFlag) = []) ∧
    (plan_or_apply rid tta rtype (resolveDryRun action applyFlag) ≠ [] →
      applyFlag = true ∧ action ≠ "dry-run" ∧ action ≠ "show") := by
  refine ⟨by simp [resolveDryRun], rfl, rfl, ?_, ?_⟩
  · intro h
    rw [h]
    exact ⟨by simp [plan_or_apply], by simp [plan_or_apply_storage]⟩
  · intro hne
    by_cases hd : action == "dry-run"
    · exact absurd (by simp [resolveDryRun, hd, plan_or_apply]) hne
    by_cases hs : action == "show"
    · exact absurd (by simp [resolveDryRun, hs, plan_or_apply]) hne
    cases ha : applyFlag
    · exact absurd (by simp [resolveDryRun, hd, hs, ha, plan_or_apply]) hne
    · exact ⟨rfl, by simpa using hd, by simpa using hs⟩

/-- Witness for C3: dry-run forced for the `dry-run` action under `--apply`
issues no call; evaluated on a concrete pending tag list. -/
theorem claim_C3_witness :
    plan_or_apply "vol-1" [⟨"Name", "srv"⟩] "Volume" (resolveDryRun "dry-run" true) = [] ∧
    plan_or_apply_storage "efs" "fs-1" [⟨"Name", "srv"⟩] "EFS FileSystem"
      (resolveDryRun "dry-run" true) = [] :=
  (claim_C3 "dry-run" "efs" "vol-1" "Volume" true [⟨"Name", "srv"⟩]).2.2.2.1 rfl

/-- C10: a terminated instance produces no tagging at all in
`process_instance`, the region loop only sees instances whose state passed
the `running`/`stopped` server-side filter (so never a terminated one), and
removing terminated instances from a region changes nothing. -/
theorem claim_C10 (env : Ec2Region) (dry tI tV tS : Bool) :
    (∀ inst : Instance, inst.state = "terminated" →
      process_instance env inst dry tI tV tS = []) ∧
    (∀ i ∈ env.instances.filter
        (fun i => i.state == "running" || i.state == "stopped"),
      i.state ≠ "terminated") ∧
    process_region
      { env with instances := env.instances.filter (fun i => i.state != "terminated") }
      dry tI tV tS = process_region env dry tI tV tS := by
  refine ⟨?_, ?_, ?_⟩
  · intro inst h
    simp [process_instance, h]
  · intro i hi
    rw [List.mem_filter] at hi
    rcases (by simpa using hi.2 : i.state = "running" ∨ i.state = "stopped") with h | h <;>
      simp [h]
  · have hf : (env.instances.filter (fun i => i.state != "terminated")).filter
        (fun i => i.state == "running" || i.state == "stopped") =
        env.instances.filter (fun i => i.state == "running" || i.state == "stopped") := by
      rw [List.filter_filter]
      apply List.filter_congr
      intro a _
      cases hp : (a.state == "running" || a.state == "stopped")
      · simp [hp]
      · rcases (by simpa using hp : a.state = "running" ∨ a.state = "stopped") with h | h <;>
          simp [hp, h]
    simp only [process_region]
    rw [hf]
    rfl

/-- Witness for C10: a concrete terminated instance yields no calls. -/
theorem claim_C10_witness :
    process_instance ⟨[], fun _ => none, fun _ => none, []⟩
      ⟨"i-1", "terminated", some [⟨"Name", "gone"⟩], [some "vol-1"]⟩
      false true true true = [] :=
  (claim_C10 ⟨[], fun _ => none, fun _ => none, []⟩ false true true true).1
    ⟨"i-1", "terminated", some [⟨"Name", "gone"⟩], [some "vol-1"]⟩ rfl

/-- Batch processing splits over list concatenation. -/
theorem process_resources_run_append (dF cF : String → Bool)
    (tagsOf : String → List Tag) (mk nv : String) (dry : Bool) (xs ys : List String) :
    process_resources_run dF cF tagsOf mk nv dry (xs ++ ys) =
      ⟨(process_resources_run dF cF tagsOf mk nv dry xs).calls ++
        (process_resources_run dF cF tagsOf mk nv dry ys).calls,
       (process_resources_run dF cF tagsOf mk nv dry xs).errors ++
        (process_resources_run dF cF tagsOf mk nv dry ys).errors⟩ := by
  induction xs with
  | nil => simp [process_resources_run]
  | cons x xs ih => simp [process_resources_run, ih]

/-- Batch processing only looks at the failure functions on its own ids. -/
theorem process_resources_run_congr (dF cF dF' cF' : String → Bool)
    (tagsOf : String → List Tag) (mk nv : String) (dry : Bool) (ys : List String)
    (h : ∀ r ∈ ys, dF r = dF' r ∧ cF r = cF' r) :
    process_resources_run dF cF tagsOf mk nv dry ys =
      process_resources_run dF' cF' tagsOf mk nv dry ys := by
  induction ys with
  | nil => rfl
  | cons y ys ih =>
    have hy := h y (by simp)
    have ht := ih fun r hr => h r (by simp [hr])
    simp only [process_resources_run, ht, process_resource_run, plan_or_apply_run,
      hy.1, hy.2]

/-- Exactly one tagging attempt per actionable resource, independent of
which `create_tags` calls fail. -/
theorem process_resources_run_calls_length (dF cF : String → Bool)
    (tagsOf : String → List Tag) (mk nv : String) (dry : Bool) (ys : List String) :
    (process_resources_run dF cF tagsOf mk nv dry ys).calls.length =
      if dry then 0
      else (ys.filter
        (fun r => !dF r && !(tagsToAdd (tagsOf r) mk nv).isEmpty)).length := by
  induction ys with
  | nil => simp [process_resources_run]
  | cons y ys ih =>
    simp only [process_resources_run, List.length_append, ih]
    cases hdry : dry <;>
      cases hdf : dF y <;>
        cases hemp : (tagsToAdd (tagsOf y) mk nv).isEmpty <;>
          simp [process_resource_run, plan_or_apply_run, hdf, hemp, hdry,
            List.filter_cons] <;>
          cases hcf : cF y <;> simp [hcf] <;> omega

/-- Every per-resource `ClientError` is surfaced as exactly one printed
error, in order, and processing continues past it. -/
theorem process_resources_run_errors (dF cF : String → Bool)
    (tagsOf : String → List Tag) (mk nv : String) (dry : Bool) (ys : List String) :
    (process_resources_run dF cF tagsOf mk nv dry ys).errors =
      ys.filter (fun r =>
        dF r || (!dry && !(tagsToAdd (tagsOf r) mk nv).isEmpty && cF r)) := by
  induction ys with
  | nil => simp [process_resources_run]
  | cons y ys ih =>
    simp only [process_resources_run, ih]
    cases hdry : dry <;>
      cases hdf : dF y <;>
        cases hemp : (tagsToAdd (tagsOf y) mk nv).isEmpty <;>
          simp [process_resource_run, plan_or_apply_run, hdf, hemp, hdry,
            List.filter_cons] <;>
          cases hcf : cF y <;> simp [hcf]

/-- C8: per-resource `ClientError`s are caught and printed as exactly one
error entry each, the batch splits over concatenation (a failing prefix
never aborts the suffix), the outcome for a sublist depends only on the
failure behaviour of its own resources, and each actionable resource gets
exactly one tagging attempt (no retry), independent of failures. -/
theorem claim_C8 (dF cF dF' cF' : String → Bool) (tagsOf : String → List Tag)
    (mk nv : String) (dry : Bool) (xs ys : List String) :
    (process_resources_run dF cF tagsOf mk nv dry (xs ++ ys)).calls =
      (process_resources_run dF cF tagsOf mk nv dry xs).calls ++
      (process_resources_run dF cF tagsOf mk nv dry ys).calls ∧
    (process_resources_run dF cF tagsOf mk nv dry (xs ++ ys)).errors =
      (process_resources_run dF cF tagsOf mk nv dry xs).errors ++
      (process_resources_run dF cF tagsOf mk nv dry ys).errors ∧
    ((∀ r ∈ ys, dF r = dF' r ∧ cF r = cF' r) →
      process_resources_run dF cF tagsOf mk nv dry ys =
        process_resources_run dF' cF' tagsOf mk nv dry ys) ∧
    (process_resources_run dF cF tagsOf mk nv dry ys).calls.length =
      (if dry then 0
       else (ys.filter
         (fun r => !dF r && !(tagsToAdd (tagsOf r) mk nv).isEmpty)).length) ∧
    (process_resources_run dF cF tagsOf mk nv dry ys).errors =
      ys.filter (fun r =>
        dF r || (!dry && !(tagsToAdd (tagsOf r) mk nv).isEmpty && cF r)) := by
  refine ⟨?_, ?_, process_resources_run_congr dF cF dF' cF' tagsOf mk nv dry ys,
    process_resources_run_calls_length dF cF tagsOf mk nv dry ys,
    process_resources_run_errors dF cF tagsOf mk nv dry ys⟩
  · rw [process_resources_run_append]
  · rw [process_resources_run_append]

/-- Witness for C8: a failing resource does not change the processing of a
batch whose own resources behave identically. -/
theorem claim_C8_witness :
    process_resources_run (fun r => r == "vol-bad") (fun _ => false) (fun _ => [])
      "web" "srv" false ["vol-1", "vol-2"] =
    process_resources_run (fun _ => false) (fun _ => false) (fun _ => [])
      "web" "srv" false ["vol-1", "vol-2"] :=
  (claim_C8 (fun r => r == "vol-bad") (fun _ => false) (fun _ => false) (fun _ => false)
    (fun _ => []) "web" "srv" false [] ["vol-1", "vol-2"]).2.2.1 (by decide)

/-- Membership in the eligible-key list. -/
theorem mem_eligibleKeys {env : BillingEnv} {regions : List String} {k : String} :
    k ∈ eligibleKeys env regions ↔
      k ∈ foundKeys env regions ∧ pyStartsWith k "aws:" = false ∧
        k ∉ env.activeTags := by
  simp [eligibleKeys, List.mem_filter, List.mem_dedup, and_assoc]

/-- C7: in apply mode the keys activated are exactly the tag keys found on
instance, volume and snapshot resources across the scanned regions, minus
keys starting `aws:` and minus already-active Cost Allocation Tags; with no
eligible key, no activation call is made. -/
theorem claim_C7 (env : BillingEnv) (regions : List String) (k : String)
    (h : env.listOk = true) :
    ((∃ ks, activate_cost_allocation_tags env regions false =
        [.putCostAllocationTags ks] ∧ k ∈ ks) ↔
      (k ∈ foundKeys env regions ∧ pyStartsWith k "aws:" = false ∧
        k ∉ env.activeTags)) ∧
    (eligibleKeys env regions = [] →
      activate_cost_allocation_tags env regions false = []) := by
  constructor
  · rw [← mem_eligibleKeys]
    cases hE : (eligibleKeys env regions).isEmpty
    · have hAct : activate_cost_allocation_tags env regions false =
          [.putCostAllocationTags (eligibleKeys env regions)] := by
        simp [activate_cost_allocation_tags, h, hE]
      constructor
      · rintro ⟨ks, hks, hk⟩
        rw [hAct] at hks
        simp only [List.cons.injEq, ApiCall.putCostAllocationTags.injEq,
          and_true] at hks
        rwa [hks]
      · intro hk
        exact ⟨_, hAct, hk⟩
    · have he : eligibleKeys env regions = [] := List.isEmpty_iff.mp hE
      simp [activate_cost_allocation_tags, h, hE, he]
  · intro he
    simp [activate_cost_allocation_tags, h, he]

/-- Witness for C7: with every found key already active, nothing is
eligible and no activation call is issued. -/
theorem claim_C7_witness :
    activate_cost_allocation_tags
      ⟨["Team"], true, fun _ => true, fun _ => [⟨"instance", "Team"⟩]⟩
      ["us-east-1"] false = [] :=
  (claim_C7 ⟨["Team"], true, fun _ => true, fun _ => [⟨"instance", "Team"⟩]⟩
    ["us-east-1"] "Team" rfl).2 (by decide)

/-- A tag list with no `Name` key leaves the loop at the fallback id. -/
theorem machineKeyLoop_no_name (iid : String) :
    ∀ ts : List Tag, (∀ t ∈ ts, (t.key == "Name") = false) →
      machineKeyLoop iid ts = iid := by
  intro ts
  induction ts with
  | nil => intro _; rfl
  | cons t ts ih =>
    intro h
    have ht := h t (by simp)
    simp only [machineKeyLoop, ht, Bool.false_and, Bool.false_eq_true, if_false]
    exact ih fun u hu => h u (by simp [hu])

/-- Characterization of the loop in terms of the first `Name` tag, under
key uniqueness. -/
theorem machineKeyLoop_find (iid : String) :
    ∀ ts : List Tag, (keysOf ts).Nodup →
      (∀ t : Tag, ts.find? (fun t => t.key == "Name") = some t →
        (t.value ≠ "" → machineKeyLoop iid ts = machineKeyOfName t.value) ∧
        (t.value = "" → machineKeyLoop iid ts = iid)) ∧
      (ts.find? (fun t => t.key == "Name") = none → machineKeyLoop iid ts = iid) := by
  intro ts
  induction ts with
  | nil => exact fun _ => ⟨fun t h => by simp at h, fun _ => rfl⟩
  | cons u ts ih =>
    intro hnd
    rw [keysOf, List.map_cons, List.nodup_cons] at hnd
    cases hu : (u.key == "Name")
    · have hfind : (u :: ts).find? (fun t => t.key == "Name") =
          ts.find? (fun t => t.key == "Name") := List.find?_cons_of_neg _ (by simp [hu])
      have hloop : machineKeyLoop iid (u :: ts) = machineKeyLoop iid ts := by
        simp [machineKeyLoop, hu]
      rw [hfind, hloop]
      exact ih hnd.2
    · have hkey : u.key = "Name" := by simpa using hu
      have hfind : (u :: ts).find? (fun t => t.key == "Name") = some u :=
        List.find?_cons_of_pos _ (by simp [hu])
      have hnone : ∀ v ∈ ts, (v.key == "Name") = false := by
        intro v hv
        cases hvk : (v.key == "Name")
        · rfl
        · exfalso
          have hveq : v.key = "Name" := by simpa using hvk
          apply hnd.1
          rw [hkey, ← hveq]
          exact List.mem_map_of_mem (·.key) hv
      constructor
      · intro t ht
        rw [hfind] at ht
        injection ht with ht
        subst ht
        constructor
        · intro hval
          simp [machineKeyLoop, hu, (by simpa using hval : (u.value != "") = true),
            machineKeyOfName]
        · intro hval
          simp only [machineKeyLoop, hu, hval]
          simp only [bne_self_eq_false, Bool.and_false, Bool.false_eq_true, if_false]
          exact machineKeyLoop_no_name iid ts hnone
      · intro hn
        rw [hfind] at hn
        simp at hn

/-- C1: under unique tag keys, `get_machine_key` returns the `Name` tag
value with surrounding whitespace stripped, internal whitespace runs
collapsed to single separators and spaces replaced by hyphens
(`machineKeyOfName`), and returns the instance id when there is no `Name`
tag or its value is empty. -/
theorem claim_C1 (inst : Instance) (hnd : (keysOf (inst.tags.getD [])).Nodup) :
    (∀ t : Tag, (inst.tags.getD []).find? (fun t => t.key == "Name") = some t →
      (t.value ≠ "" → get_machine_key inst = machineKeyOfName t.value) ∧
      (t.value = "" → get_machine_key inst = inst.iid)) ∧
    ((inst.tags.getD []).find? (fun t => t.key == "Name") = none →
      get_machine_key inst = inst.iid) := by
  obtain ⟨iid, state, tags, bdm⟩ := inst
  cases tags with
  | none => exact ⟨fun t ht => by simp at ht, fun _ => rfl⟩
  | some ts =>
    simp only [Option.getD_some] at hnd ⊢
    cases ts with
    | nil => exact ⟨fun t ht => by simp at ht, fun _ => rfl⟩
    | cons u us =>
      have hg : get_machine_key ⟨iid, state, some (u :: us), bdm⟩ =
          machineKeyLoop iid (u :: us) := by
        simp [get_machine_key]
      rw [hg] at *
      exact machineKeyLoop_find iid (u :: us) hnd

/-- Witness for C1 at a concrete instance whose `Name` needs stripping and
collapsing. -/
theorem claim_C1_witness :
    get_machine_key ⟨"i-9", "running", some [⟨"Name", "  my  web srv "⟩, ⟨"env", "p"⟩], []⟩ =
      machineKeyOfName "  my  web srv " :=
  ((claim_C1 ⟨"i-9", "running", some [⟨"Name", "  my  web srv "⟩, ⟨"env", "p"⟩], []⟩
      (by decide)).1
    ⟨"Name", "  my  web srv "⟩ (by decide)).1 (by decide)

/-- Tags carried by any call emitted by `plan_or_apply_storage` are the
requested tags. -/
theorem callTags_plan_or_apply_storage {svc rid rt : String} {dry : Bool}
    {tta : List Tag} {c : ApiCall} (h : c ∈ plan_or_apply_storage svc rid tta rt dry) :
    callTags c = tta := by
  unfold plan_or_apply_storage at h
  split_ifs at h <;> simp at h <;> simp [h, callTags]

/-- Counterexample to C4 as stated: an EFS file system and an EC2 instance
sharing the `Name` value `"a  b"` get different keys (`"a--b"` from
`normalize_storage_key` versus `"a-b"` from `get_machine_key`), so the key
propagated onto storage resources is not the instance-derived machine key. -/
theorem claim_C4_counterexample :
    efsKeyOf ⟨"fs-123", [⟨"Name", "a  b"⟩]⟩ ≠
      get_machine_key ⟨"i-1", "running", some [⟨"Name", "a  b"⟩], []⟩ := by
  decide

/-- C4 (amended): the key written onto an EFS/FSx file system and all its
access points, backups, volumes and SVMs is derived from the storage
resource's own `Name` tag (case-insensitive, falling back to its id) via
`normalize_storage_key`; every tag written by the storage pass has key
`Name` or that storage-derived key, with no reference to EC2 instances. -/
theorem claim_C4 (eapi : EfsApi) (fapi : FsxApi) (efs : EfsFileSystem)
    (ffs : FsxFileSystem) (dry : Bool) :
    efsKeyOf efs = normalize_storage_key (efsNameOf efs) ∧
    fsxKeyOf ffs = normalize_storage_key (fsxNameOf ffs) ∧
    (∀ c ∈ processEfsFs eapi efs dry, ∀ t ∈ callTags c,
      t.key = "Name" ∨ t.key = efsKeyOf efs) ∧
    (∀ c ∈ processFsxFs fapi ffs dry, ∀ t ∈ callTags c,
      t.key = "Name" ∨ t.key = fsxKeyOf ffs) := by
  refine ⟨rfl, rfl, ?_, ?_⟩
  · intro c hc t ht
    simp only [processEfsFs, List.mem_append, List.mem_flatMap] at hc
    rcases hc with hc | ⟨ap, _, hc⟩
    · rw [callTags_plan_or_apply_storage hc] at ht
      simp only [List.mem_append] at ht
      rcases ht with ht | ht <;> split_ifs at ht <;> simp at ht <;> simp [ht]
    · split_ifs at hc
      · simp at hc
      · rw [callTags_plan_or_apply_storage hc] at ht
        simp at ht
        simp [ht]
  · intro c hc t ht
    simp only [processFsxFs, List.mem_append, List.mem_flatMap] at hc
    rcases hc with ((hc | ⟨bArn, _, hc⟩) | hc) | hc
    · rw [callTags_plan_or_apply_storage hc] at ht
      simp only [List.mem_append] at ht
      rcases ht with ht | ht <;> split_ifs at ht <;> simp at ht <;> simp [ht]
    · split_ifs at hc
      · simp at hc
      · rw [callTags_plan_or_apply_storage hc] at ht
        simp at ht
        simp [ht]
    · split_ifs at hc
      · obtain ⟨vArn, _, hc⟩ := by simpa using hc
        rw [callTags_plan_or_apply_storage hc.2] at ht
        simp at ht
        simp [ht]
      · simp at hc
    · split_ifs at hc
      · obtain ⟨svmArn, _, hc⟩ := by simpa using hc
        rw [callTags_plan_or_apply_storage hc.2] at ht
        simp at ht
        simp [ht]
      · simp at hc

/-- Witness for C4 at a concrete EFS file system named `my fs` with one
access point: the access-point tag key is the storage-derived key. -/
theorem claim_C4_witness :
    (⟨"my-fs", ""⟩ : Tag).key = "Name" ∨
      (⟨"my-fs", ""⟩ : Tag).key = efsKeyOf ⟨"fs-1", [⟨"Name", "my fs"⟩]⟩ :=
  (claim_C4 ⟨fun _ => [], fun _ => ["fsap-1"]⟩
      ⟨fun _ => [], fun _ => [], fun _ => [], fun _ => []⟩
      ⟨"fs-1", [⟨"Name", "my fs"⟩]⟩ ⟨"fs-2", "LUSTRE", "arn:2", []⟩ false).2.2.1
    (.tagResourceById "fsap-1" [⟨"my-fs", ""⟩]) (by decide)
    ⟨"my-fs", ""⟩ (by decide)

/-- `joinWith` unfolding on a list with at least two tokens. -/
theorem joinWith_cons_cons (sep x y : List Char) (rest : List (List Char)) :
    joinWith sep (x :: y :: rest) = x ++ sep ++ joinWith sep (y :: rest) :=
  rfl

/-- A list whose head is not whitespace is unchanged by `dropWhile`. -/
theorem dropWhile_pyIsSpace_eq_self {l : List Char}
    (h : ∀ c, l.head? = some c → pyIsSpace c = false) :
    l.dropWhile pyIsSpace = l := by
  cases l with
  | nil => rfl
  | cons c cs => simp [List.dropWhile_cons, h c rfl]

/-- Inversion of the shape recognizer at the start state. -/
theorem ssState_cons_zero {c : Char} {cs : List Char}
    (h : ssState (c :: cs) 0 = true) :
    pyIsSpace c = false ∧ ssState cs 1 = true := by
  by_cases hp : pyIsSpace c
  · simp [ssState, hp] at h
  · exact ⟨by simpa using hp, by simpa [ssState, hp] using h⟩

/-- Inversion of the shape recognizer at a whitespace character in a word. -/
theorem ssState_cons_one {c : Char} {cs : List Char}
    (h : ssState (c :: cs) 1 = true) (hp : pyIsSpace c = true) :
    c = ' ' ∧ ssState cs 2 = true := by
  by_cases hc : c == ' '
  · exact ⟨by simpa using hc, by simpa [ssState, hp, hc] using h⟩
  · simp [ssState, hp, hc] at h

/-- A non-whitespace character moves the recognizer to the in-word state. -/
theorem ssState_cons_nonspace {c : Char} {cs : List Char} {st : Nat}
    (hp : pyIsSpace c = false) :
    ssState (c :: cs) st = ssState cs 1 := by
  simp [ssState, hp]

/-- Inversion of the shape recognizer right after a separating space. -/
theorem ssState_two {l : List Char} (h : ssState l 2 = true) :
    ∃ d ds, l = d :: ds ∧ pyIsSpace d = false ∧ ssState ds 1 = true := by
  cases l with
  | nil => simp [ssState] at h
  | cons d ds =>
    by_cases hp : pyIsSpace d
    · simp [ssState, hp] at h
    · exact ⟨d, ds, rfl, by simpa using hp, by simpa [ssState, hp] using h⟩

/-- Accepted strings do not end in whitespace. -/
theorem ssState_getLast (l : List Char) :
    ∀ st, ssState l st = true → ∀ c, l.getLast? = some c → pyIsSpace c = false := by
  induction l with
  | nil => intro st _ c hc; simp at hc
  | cons d ds ih =>
    intro st h c hc
    cases ds with
    | nil =>
      have hdc : d = c := by simpa using hc
      subst hdc
      by_cases hp : pyIsSpace d
      · exfalso
        simp [ssState, hp] at h
      · simpa using hp
    | cons e es =>
      rw [List.getLast?_cons_cons] at hc
      by_cases hp : pyIsSpace d
      · by_cases hcond : (d == ' ' && st == 1)
        · have h2 : ssState (e :: es) 2 = true := by simpa [ssState, hp, hcond] using h
          exact ih 2 h2 c hc
        · simp [ssState, hp, hcond] at h
      · have h1 : ssState (e :: es) 1 = true := by simpa [ssState, hp] using h
        exact ih 1 h1 c hc

/-- Accepted strings start with a non-whitespace character. -/
theorem ssState_head (l : List Char) (h : ssState l 0 = true) :
    ∀ c, l.head? = some c → pyIsSpace c = false := by
  cases l with
  | nil => intro c hc; simp at hc
  | cons d ds =>
    intro c hc
    have hdc : d = c := by simpa using hc
    subst hdc
    exact (ssState_cons_zero h).1

/-- Accepted strings are unchanged by Python `strip`. -/
theorem pyStrip_eq_self {l : List Char} (h : ssState l 0 = true) :
    pyStrip l = l := by
  have h1 : l.dropWhile pyIsSpace = l :=
    dropWhile_pyIsSpace_eq_self (ssState_head l h)
  have h2 : l.reverse.dropWhile pyIsSpace = l.reverse := by
    apply dropWhile_pyIsSpace_eq_self
    intro c hc
    rw [List.head?_reverse] at hc
    exact ssState_getLast l 0 h c hc
  rw [pyStrip, h1, h2, List.reverse_reverse]

/-- The split worker never returns the empty token list when the current
token is non-empty. -/
theorem pySplitAux_ne_nil (l : List Char) :
    ∀ acc, acc ≠ [] → pySplitAux l acc ≠ [] := by
  induction l with
  | nil =>
    intro acc h
    cases acc with
    | nil => exact absurd rfl h
    | cons a as => simp [pySplitAux]
  | cons c cs ih =>
    intro acc h
    by_cases hp : pyIsSpace c
    · cases acc with
      | nil => exact absurd rfl h
      | cons a as => simp [pySplitAux, hp]
    · simp only [pySplitAux, hp, Bool.false_eq_true, if_false]
      exact ih (c :: acc) (by simp)

/-- Joining the split of an accepted suffix reconstructs it behind the
reversed current token. -/
theorem joinWith_pySplitAux (n : Nat) :
    ∀ l acc, l.length ≤ n → acc ≠ [] → ssState l 1 = true →
      joinWith [' '] (pySplitAux l acc) = acc.reverse ++ l := by
  induction n with
  | zero =>
    intro l acc hlen hacc _
    have hl : l = [] := List.length_eq_zero.mp (Nat.le_zero.mp hlen)
    subst hl
    cases acc with
    | nil => exact absurd rfl hacc
    | cons a as => simp [pySplitAux, joinWith]
  | succ n ih =>
    intro l acc hlen hacc h
    cases l with
    | nil =>
      cases acc with
      | nil => exact absurd rfl hacc
      | cons a as => simp [pySplitAux, joinWith]
    | cons c cs =>
      by_cases hp : pyIsSpace c
      · obtain ⟨hc, h2⟩ := ssState_cons_one h hp
        obtain ⟨d, ds, rfl, hd, h1⟩ := ssState_two h2
        have hsplit : pySplitAux (c :: d :: ds) acc =
            acc.reverse :: pySplitAux ds [d] := by
          cases acc with
          | nil => exact absurd rfl hacc
          | cons a as => simp [pySplitAux, hp, hd]
        rw [hsplit]
        obtain ⟨y, rest, hyr⟩ :=
          List.exists_cons_of_ne_nil (pySplitAux_ne_nil ds [d] (by simp))
        rw [hyr, joinWith_cons_cons, ← hyr,
          ih ds [d] (by simp at hlen ⊢; omega) (by simp) h1]
        subst hc
        simp
      · rw [ssState_cons_nonspace (by simpa using hp)] at h
        have hsplit : pySplitAux (c :: cs) acc = pySplitAux cs (c :: acc) := by
          simp [pySplitAux, hp]
        rw [hsplit, ih cs (c :: acc) (by simpa using hlen) (by simp) h]
        simp

/-- Joining the Python split of an accepted string with single spaces
reconstructs the string. -/
theorem joinWith_pySplit_eq {l : List Char} (h : ssState l 0 = true) :
    joinWith [' '] (pySplit l) = l := by
  cases l with
  | nil => rfl
  | cons c cs =>
    obtain ⟨hp, h1⟩ := ssState_cons_zero h
    have hsplit : pySplit (c :: cs) = pySplitAux cs [c] := by
      simp [pySplit, pySplitAux, hp]
    rw [hsplit, joinWith_pySplitAux cs.length cs [c] le_rfl (by simp) h1]
    simp

/-- `dropWhile` never lengthens a list. -/
theorem length_dropWhile_le (p : Char → Bool) :
    ∀ l : List Char, (l.dropWhile p).length ≤ l.length := by
  intro l
  induction l with
  | nil => simp
  | cons c cs ih =>
    by_cases hp : p c
    · rw [List.dropWhile_cons, if_pos hp]
      exact Nat.le_trans ih (by simp)
    · rw [List.dropWhile_cons, if_neg hp]

/-- A `dropWhile` that preserves the length drops nothing. -/
theorem dropWhile_eq_self_of_length (p : Char → Bool) :
    ∀ l : List Char, (l.dropWhile p).length = l.length → l.dropWhile p = l := by
  intro l h
  cases l with
  | nil => rfl
  | cons c cs =>
    by_cases hp : p c
    · exfalso
      rw [List.dropWhile_cons, if_pos hp] at h
      have := length_dropWhile_le p cs
      simp at h
      omega
    · rw [List.dropWhile_cons, if_neg hp]

/-- A `strip` that preserves the length strips nothing. -/
theorem pyStrip_eq_self_of_length {l : List Char}
    (h : (pyStrip l).length = l.length) : pyStrip l = l := by
  have h1 := length_dropWhile_le pyIsSpace l
  have h2 := length_dropWhile_le pyIsSpace (l.dropWhile pyIsSpace).reverse
  have hlps : (pyStrip l).length =
      ((l.dropWhile pyIsSpace).reverse.dropWhile pyIsSpace).length := by
    simp [pyStrip]
  simp only [List.length_reverse] at h2
  have e1 : (l.dropWhile pyIsSpace).length = l.length := by omega
  have ha : l.dropWhile pyIsSpace = l := dropWhile_eq_self_of_length pyIsSpace l e1
  rw [pyStrip, ha]
  have e2 : (l.reverse.dropWhile pyIsSpace).length = l.reverse.length := by
    rw [pyStrip, ha] at h
    simpa using h
  rw [dropWhile_eq_self_of_length pyIsSpace l.reverse e2, List.reverse_reverse]

/-- Joining the split never lengthens past the input plus the current
token. -/
theorem joinWith_pySplitAux_length_le :
    ∀ (l acc : List Char),
      (joinWith [' '] (pySplitAux l acc)).length ≤ acc.length + l.length := by
  intro l
  induction l with
  | nil =>
    intro acc
    cases acc with
    | nil => simp [pySplitAux, joinWith]
    | cons a as => simp [pySplitAux, joinWith]
  | cons c cs ih =>
    intro acc
    by_cases hp : pyIsSpace c
    · cases acc with
      | nil =>
        rw [show pySplitAux (c :: cs) [] = pySplitAux cs [] from by
          simp [pySplitAux, hp]]
        have := ih []
        simp at this ⊢
        omega
      | cons a as =>
        rw [show pySplitAux (c :: cs) (a :: as) =
            (a :: as).reverse :: pySplitAux cs [] from by simp [pySplitAux, hp]]
        cases hys : pySplitAux cs [] with
        | nil =>
          simp [joinWith]
        | cons y rest =>
          rw [joinWith_cons_cons]
          have := ih []
          rw [hys] at this
          simp at this ⊢
          omega
    · rw [show pySplitAux (c :: cs) acc = pySplitAux cs (c :: acc) from by
        simp [pySplitAux, hp]]
      have := ih (c :: acc)
      simp at this ⊢
      omega

/-- Necessity, generalized over the split worker: if hyphenating the joined
split of `acc.reverse ++ l` (with the in-progress token `acc`) gives back
the hyphenation of `acc.reverse ++ l` itself, then `l` continues a
single-spaced string. -/
theorem ssState_of_joinWith_pySplitAux (n : Nat) :
    ∀ (l acc : List Char), l.length ≤ n → acc ≠ [] →
      (joinWith [' '] (pySplitAux l acc)).map
          (fun c => if c == ' ' then '-' else c) =
        (acc.reverse ++ l).map (fun c => if c == ' ' then '-' else c) →
      ssState l 1 = true := by
  induction n with
  | zero =>
    intro l acc hlen _ _
    have hl : l = [] := List.length_eq_zero.mp (Nat.le_zero.mp hlen)
    subst hl
    decide
  | succ n ih =>
    intro l acc hlen hacc heq
    cases l with
    | nil => decide
    | cons c cs =>
      by_cases hp : pyIsSpace c
      · cases cs with
        | nil =>
          exfalso
          rw [show pySplitAux [c] acc = [acc.reverse] from by
            cases acc with
            | nil => exact absurd rfl hacc
            | cons a as => simp [pySplitAux, hp]] at heq
          have hls := congrArg List.length heq
          simp [joinWith] at hls
        | cons d ds =>
          by_cases hd : pyIsSpace d
          · exfalso
            rw [show pySplitAux (c :: d :: ds) acc =
                acc.reverse :: pySplitAux ds [] from by
              cases acc with
              | nil => exact absurd rfl hacc
              | cons a as => simp [pySplitAux, hp, hd]] at heq
            have hls := congrArg List.length heq
            cases hys : pySplitAux ds [] with
            | nil =>
              rw [hys] at hls
              simp [joinWith] at hls
            | cons y rest =>
              rw [hys, joinWith_cons_cons] at hls
              have hb := joinWith_pySplitAux_length_le ds []
              rw [hys] at hb
              simp at hls hb
              omega
          · rw [show pySplitAux (c :: d :: ds) acc =
                acc.reverse :: pySplitAux ds [d] from by
              cases acc with
              | nil => exact absurd rfl hacc
              | cons a as => simp [pySplitAux, hp, hd]] at heq
            obtain ⟨y, rest, hyr⟩ :=
              List.exists_cons_of_ne_nil (pySplitAux_ne_nil ds [d] (by simp))
            rw [hyr, joinWith_cons_cons, ← hyr] at heq
            simp only [List.append_assoc, List.map_append, List.map_cons,
              List.map_nil, List.singleton_append, List.nil_append] at heq
            have heq2 := List.append_cancel_left heq
            injection heq2 with hhd htl
            have hc' : c = ' ' := by
              by_cases hcsp : c == ' '
              · simpa using hcsp
              · exfalso
                simp [hcsp] at hhd
                rw [← hhd] at hp
                exact absurd hp (by decide)
            have hss : ssState ds 1 = true :=
              ih ds [d] (by simp at hlen; omega) (by simp) (by simpa using htl)
            subst hc'
            have hd' : pyIsSpace d = false := by simpa using hd
            have hsp1 : pyIsSpace ' ' = true := by decide
            simp [ssState, hsp1, hd', hss]
      · rw [show pySplitAux (c :: cs) acc = pySplitAux cs (c :: acc) from by
          simp [pySplitAux, hp]] at heq
        have hss : ssState cs 1 = true :=
          ih cs (c :: acc) (by simpa using hlen) (by simp) (by simpa using heq)
        rw [ssState_cons_nonspace (by simpa using hp)]
        exact hss

/-- Necessity: if the two machine-key computations agree on a name, the
name is single-spaced. -/
theorem isSingleSpaced_of_machineKey_eq {s : String}
    (h : machineKeyOfName s = standaloneMachineKey s) :
    isSingleSpaced s = true := by
  have hl : (joinWith [' '] (pySplit (pyStrip s.data))).map
      (fun c => if c == ' ' then '-' else c) =
        s.data.map (fun c => if c == ' ' then '-' else c) :=
    congrArg String.data h
  have hlen : (joinWith [' '] (pySplit (pyStrip s.data))).length = s.data.length := by
    have := congrArg List.length hl
    simpa using this
  have h1 : (joinWith [' '] (pySplit (pyStrip s.data))).length ≤
      (pyStrip s.data).length := by
    simpa using joinWith_pySplitAux_length_le (pyStrip s.data) []
  have h2 : (pyStrip s.data).length ≤ s.data.length := by
    have ha := length_dropWhile_le pyIsSpace s.data
    have hb := length_dropWhile_le pyIsSpace (s.data.dropWhile pyIsSpace).reverse
    simp only [List.length_reverse] at hb
    simp only [pyStrip, List.length_reverse]
    omega
  have hstrip : pyStrip s.data = s.data := pyStrip_eq_self_of_length (by omega)
  rw [hstrip] at hl
  show ssState s.data 0 = true
  cases hsd : s.data with
  | nil => decide
  | cons c cs =>
    rw [hsd] at hl
    by_cases hp : pyIsSpace c
    · exfalso
      rw [show pySplit (c :: cs) = pySplitAux cs [] from by
        simp [pySplit, pySplitAux, hp]] at hl
      have hls := congrArg List.length hl
      have hb := joinWith_pySplitAux_length_le cs []
      simp at hls hb
      omega
    · rw [show pySplit (c :: cs) = pySplitAux cs [c] from by
        simp [pySplit, pySplitAux, hp]] at hl
      have hss : ssState cs 1 = true :=
        ssState_of_joinWith_pySplitAux cs.length cs [c] le_rfl (by simp)
          (by simpa using hl)
      rw [ssState_cons_nonspace (by simpa using hp)]
      exact hss

/-- Counterexample to C5 as stated: on the name `" a"` the instance-lineage
path strips to `"a"` while the standalone volume/snapshot paths give
`"-a"`, so the two machine-key computations are not the same function. -/
theorem claim_C5_counterexample :
    machineKeyOfName " a" ≠ standaloneMachineKey " a" := by
  decide

/-- C5 (amended): the instance-lineage normalization (strip, collapse
whitespace, hyphenate) and the standalone `replace(' ', '-')` computation
agree exactly on names already in single-spaced form: the two keys are
equal if and only if the name consists of non-whitespace words separated by
single spaces with no leading or trailing whitespace. -/
theorem claim_C5 (s : String) :
    machineKeyOfName s = standaloneMachineKey s ↔ isSingleSpaced s = true := by
  constructor
  · exact isSingleSpaced_of_machineKey_eq
  · intro h
    have h0 : ssState s.data 0 = true := h
    unfold machineKeyOfName standaloneMachineKey
    rw [pyStrip_eq_self h0, joinWith_pySplit_eq h0]

/-- Witness for C5 at a concrete single-spaced name. -/
theorem claim_C5_witness :
    machineKeyOfName "web srv" = standaloneMachineKey "web srv" :=
  (claim_C5 "web srv").mpr (by decide)

/-- A successful AMI-id scan implies the description contains `ami-`. -/
theorem findAmiAux_hasSubstring :
    ∀ fuel l, findAmiAux fuel l ≠ [] →
      hasSubstring ['a', 'm', 'i', '-'] l = true := by
  intro fuel
  induction fuel with
  | zero => intro l h; simp [findAmiAux] at h
  | succ n ih =>
    intro l h
    cases l with
    | nil => simp [findAmiAux] at h
    | cons c cs =>
      by_cases hc : c == 'a'
      · have hce : c = 'a' := by simpa using hc
        subst hce
        simp only [findAmiAux, beq_self_eq_true, if_true] at h
        split at h
        · simp [hasSubstring, leadMatch]
        · simp [hasSubstring, ih _ h]
      · simp only [findAmiAux, hc, Bool.false_eq_true, if_false] at h
        simp [hasSubstring, ih _ h]

/-- A successful AMI-id extraction implies the description contains `ami-`. -/
theorem findAmiIds_hasSubstring {l : List Char} (h : findAmiIds l ≠ []) :
    hasSubstring ['a', 'm', 'i', '-'] l = true :=
  findAmiAux_hasSubstring l.length l h

/-- The first resolved AMI really describes to its image. -/
theorem firstResolvedAmi_some {images : String → Option Image}
    {l : List String} {amiId : String} {img : Image}
    (h : firstResolvedAmi images l = some (amiId, img)) :
    images amiId = some img := by
  induction l with
  | nil => simp [firstResolvedAmi] at h
  | cons a rest ih =>
    simp only [firstResolvedAmi] at h
    cases himg : images a with
    | none => rw [himg] at h; exact ih h
    | some i =>
      rw [himg] at h
      simp only [Option.some.injEq, Prod.mk.injEq] at h
      obtain ⟨h1, h2⟩ := h
      subst h1
      subst h2
      exact himg

/-- C6 (amended): a self-owned snapshot is repaired if and only if its
lowercased description yields an `ami-[0-9a-f]{8,17}` match, it has no
`Name` tag, and at least one matched AMI id can be described; the repair
adds a `Name` tag valued by the AMI's `Name` tag, else the image's `Name`
field, else the AMI id, plus the sanitized key tag when absent (and the key
tag on the AMI itself when absent); snapshots with a `Name` tag and
snapshots not owned by the account are left untouched. The original claim
omitted the describability condition. -/
theorem claim_C6 (images : String → Option Image) (snap : Snapshot) (dry : Bool) :
    ((keysOf snap.tags).contains "Name" = true → fixOrphanSnap images snap dry = []) ∧
    (fix_orphaned_ami_snapshots images [snap] dry =
      if snap.ownerSelf then fixOrphanSnap images snap dry else []) ∧
    (fixOrphanSnap images snap false ≠ [] ↔
      (findAmiIds (asciiLowerStr snap.desc).data ≠ [] ∧
       (keysOf snap.tags).contains "Name" = false ∧
       firstResolvedAmi images (findAmiIds (asciiLowerStr snap.desc).data) ≠ none)) ∧
    (∀ amiId img,
      firstResolvedAmi images (findAmiIds (asciiLowerStr snap.desc).data) =
        some (amiId, img) →
      (keysOf snap.tags).contains "Name" = false →
      fixOrphanSnap images snap false =
        .createTags snap.sid (⟨"Name", amiNameOf img amiId⟩ ::
          (if (keysOf snap.tags).contains (sanitizeKey (amiNameOf img amiId)) then []
           else [⟨sanitizeKey (amiNameOf img amiId), ""⟩])) ::
        (if (keysOf img.tags).contains (sanitizeKey (amiNameOf img amiId)) then []
         else [.createTags amiId [⟨sanitizeKey (amiNameOf img amiId), ""⟩]])) := by
  refine ⟨?_, ?_, ?_, ?_⟩
  · intro h
    have h' : "Name" ∈ keysOf snap.tags := by simpa using h
    simp [fixOrphanSnap, h']
  · cases ho : snap.ownerSelf <;>
      simp [fix_orphaned_ami_snapshots, List.filter_cons, ho]
  · constructor
    · intro hne
      refine ⟨?_, ?_, ?_⟩
      · intro h0
        apply hne
        have : (findAmiIds (asciiLowerStr snap.desc).data).isEmpty = true := by
          simp [h0]
        simp [fixOrphanSnap, this]
      · cases hn : (keysOf snap.tags).contains "Name"
        · rfl
        · refine absurd ?_ hne
          have hn' : "Name" ∈ keysOf snap.tags := by simpa using hn
          simp [fixOrphanSnap, hn']
      · intro hfr
        apply hne
        simp [fixOrphanSnap, hfr]
    · rintro ⟨hids, hname, hfr⟩
      obtain ⟨⟨amiId, img⟩, hp⟩ := Option.ne_none_iff_exists'.mp hfr
      have hsub := findAmiIds_hasSubstring hids
      have hname' : "Name" ∉ keysOf snap.tags := by simpa using hname
      have hie : (findAmiIds (asciiLowerStr snap.desc).data).isEmpty = false := by
        simpa [List.isEmpty_iff] using hids
      simp [fixOrphanSnap, hsub, hie, hname', hp, plan_or_apply]
  · intro amiId img hres hname
    have hids : findAmiIds (asciiLowerStr snap.desc).data ≠ [] := by
      intro h0
      rw [h0] at hres
      simp [firstResolvedAmi] at hres
    have hsub := findAmiIds_hasSubstring hids
    have himg : images amiId = some img := firstResolvedAmi_some hres
    have hname' : "Name" ∉ keysOf snap.tags := by simpa using hname
    have hie : (findAmiIds (asciiLowerStr snap.desc).data).isEmpty = false := by
      simpa [List.isEmpty_iff] using hids
    simp [fixOrphanSnap, hsub, hie, hname', hres, himg, plan_or_apply]

/-- Counterexample to C6 as stated: a self-owned snapshot with no `Name`
tag whose description matches `ami-[0-9a-f]{8,17}` is NOT repaired when the
referenced AMI cannot be described (the truly orphaned case): the claimed
conditions hold, yet no call is issued. -/
theorem claim_C6_counterexample :
    ((⟨"snap-1", "vol-1", "Created by CreateImage for ami-0123456789abcdef0",
        [], true⟩ : Snapshot).ownerSelf = true ∧
     findAmiIds (asciiLowerStr
       "Created by CreateImage for ami-0123456789abcdef0").data ≠ [] ∧
     (keysOf ([] : List Tag)).contains "Name" = false) ∧
    fix_orphaned_ami_snapshots (fun _ => none)
      [⟨"snap-1", "vol-1", "Created by CreateImage for ami-0123456789abcdef0",
        [], true⟩] false = [] := by
  decide

/-- Witness for C6: a snapshot that already has a `Name` tag is untouched. -/
theorem claim_C6_witness :
    fixOrphanSnap (fun _ => none)
      ⟨"snap-2", "vol-1", "Copied for ami-0123456789abcdef0", [⟨"Name", "kept"⟩], true⟩
      false = [] :=
  (claim_C6 (fun _ => none)
    ⟨"snap-2", "vol-1", "Copied for ami-0123456789abcdef0", [⟨"Name", "kept"⟩], true⟩
    false).1 (by decide)

end AwsTag
